import Mathlib

/-!
Verification of `backtransliterator.py` (English→Russian back-transliteration).

The Python source is shallowly embedded below:
* strings are Lean `String`s, character tests work on `List Char` data;
* Python floats are modelled as `ℚ` (all arithmetic in the source is exact
  division and multiplication of ratios);
* fallible operations (`splitted[-1]` on an empty list, `dict[key]` lookups)
  are modelled with `Option`, `none` marking a raised Python exception.
-/

namespace Backtransliterator

/-- The module-level dictionary `eng2rus_dict`: each Latin romanization unit
maps to its ordered list of possible Cyrillic renderings. -/
def eng2rus_dict : List (String × List String) :=
  [("a", ["а"]), ("b", ["б"]), ("ch", ["ч"]), ("d", ["д"]), ("e", ["е", "э"]),
   ("f", ["ф"]), ("g", ["г"]), ("i", ["и"]), ("k", ["к"]), ("kh", ["х"]),
   ("l", ["л"]), ("m", ["м"]), ("n", ["н"]), ("o", ["о"]), ("p", ["п"]),
   ("r", ["р"]), ("s", ["с"]), ("sh", ["ш"]), ("shch", ["щ", "шч"]),
   ("t", ["т"]), ("ts", ["ц", "тс", "тьс"]), ("u", ["у"]), ("v", ["в"]),
   ("y", ["й", "ы", "ый", "ий"]),
   ("ya", ["я", "ья", "ъя", "йа", "ьа"]),
   ("ye", ["е", "ье", "йе", "ъе", "ые", "ьэ"]),
   ("yi", ["ьи", "ыи", "йи", "ъи"]),
   ("yo", ["ё", "ьё", "ъё", "йо", "ьо", "ыо"]),
   ("yu", ["ю", "ью", "ъю", "йу", "ьу", "ыу"]),
   ("z", ["з"]), ("zh", ["ж"]),
   ("ε", ["", "ь"])]

/-- Python `self.eng2rus_dict[u]`: a dictionary lookup; `none` models `KeyError`. -/
def eng2rus_get (u : String) : Option (List String) :=
  (eng2rus_dict.find? (fun p => p.1 = u)).map (fun p => p.2)

/-- Python `self.single_elements`: the keys whose rendering list has length 1. -/
def single_elements : List String :=
  (eng2rus_dict.filter (fun p => p.2.length = 1)).map (fun p => p.1)

/-!
The tokenizer.

`self.eng_split = re.compile(r'shch|[cskz]h|y[aoeui]|y|[aoeiu]|ts(?!h)|[skz](?!h)|[ngfvprldmtb]', re.IGNORECASE)`
and `findall`.  `matchCore` decides, on the lower-cased character stream, how
many characters the leftmost-alternative match at the current position
consumes (regex alternation is ordered, not longest-match).  `findall` scans
left to right, skipping one character when no alternative matches, and emits
the matched span of the original (case-preserved) input.
-/

/-- Length of the regex match at the head of a (lower-cased) character list,
trying the eight alternatives of `eng_split` in their written order.
`(?!h)` is the negative lookahead of the source pattern. -/
def matchCore : List Char → Option ℕ
  | [] => none
  | 's' :: 'h' :: 'c' :: 'h' :: _ => some 4
  | [c] =>
      if c = 's' ∨ c = 'k' ∨ c = 'z' then some 1
      else if c = 'y' then some 1
      else if c = 'a' ∨ c = 'o' ∨ c = 'e' ∨ c = 'i' ∨ c = 'u' then some 1
      else if c = 'n' ∨ c = 'g' ∨ c = 'f' ∨ c = 'v' ∨ c = 'p' ∨ c = 'r' ∨
              c = 'l' ∨ c = 'd' ∨ c = 'm' ∨ c = 't' ∨ c = 'b' then some 1
      else none
  | c1 :: c2 :: rest =>
      if (c1 = 'c' ∨ c1 = 's' ∨ c1 = 'k' ∨ c1 = 'z') ∧ c2 = 'h' then some 2
      else if c1 = 'y' ∧ (c2 = 'a' ∨ c2 = 'o' ∨ c2 = 'e' ∨ c2 = 'u' ∨ c2 = 'i')
        then some 2
      else if c1 = 'y' then some 1
      else if c1 = 'a' ∨ c1 = 'o' ∨ c1 = 'e' ∨ c1 = 'i' ∨ c1 = 'u' then some 1
      else if c1 = 't' ∧ c2 = 's' ∧ rest.head? ≠ some 'h' then some 2
      else if (c1 = 's' ∨ c1 = 'k' ∨ c1 = 'z') ∧ c2 ≠ 'h' then some 1
      else if c1 = 'n' ∨ c1 = 'g' ∨ c1 = 'f' ∨ c1 = 'v' ∨ c1 = 'p' ∨ c1 = 'r' ∨
              c1 = 'l' ∨ c1 = 'd' ∨ c1 = 'm' ∨ c1 = 't' ∨ c1 = 'b' then some 1
      else none

/-- Match length at the head of the raw input: `re.IGNORECASE` lower-cases
the examined characters before comparing with the (lower-case) pattern. -/
def matchLen (s : List Char) : Option ℕ :=
  matchCore (s.map Char.toLower)

/-- Python `findall` over the `eng_split` pattern: scan left to right; on a
match emit the matched characters of the original input and resume after
them, otherwise skip one character.  A match always consumes at least one
character, so `rest.drop (n-1)` is the input after the match.  The scan
shortens the input at every step, so running it on `fuel = s.length` (see
`findall`) performs exactly the unbounded Python scan; the explicit fuel
only keeps the recursion structural. -/
def findallGo : ℕ → List Char → List (List Char)
  | 0, _ => []
  | _ + 1, [] => []
  | fuel + 1, c :: rest =>
      match matchLen (c :: rest) with
      | some n => (c :: rest).take n :: findallGo fuel (rest.drop (n - 1))
      | none => findallGo fuel rest

/-- The complete left-to-right scan of `self.eng_split.findall`. -/
def findall (s : List Char) : List (List Char) :=
  findallGo s.length s

/-- Tokenizer output as strings: `self.eng_split.findall(word)`. -/
def tokenize (word : String) : List String :=
  (findall word.toList).map (fun l => ⟨l⟩)

/-!
Silent-unit insertion.

`a`, `b`, `c` from `__init__`; `self.ab = set(product(a, b))`, so membership
in `ab` is componentwise membership.  `possible_eps` and the shifted
insertion loop are from `_list_all`.
-/

/-- The set `a` of `__init__`: left neighbours between which a soft sign may
have been dropped. -/
def aSet : List String := ["d", "z", "l", "m", "n", "r", "s", "t", "ch"]

/-- The set `b` of `__init__`: right neighbours of a possibly dropped soft sign. -/
def bSet : List String :=
  ["b", "g", "k", "l", "m", "s", "v", "d", "zh", "z", "n", "p", "r", "t", "f",
   "kh", "ts", "ch", "sh", "shch"]

/-- The set `c` of `__init__`: units after which a soft sign may have been
dropped at the end of the word. -/
def cSet : List String :=
  ["b", "v", "d", "zh", "z", "l", "m", "n", "p", "r", "s", "t", "f", "ch",
   "sh", "shch"]

/-- Membership in `self.ab = set(product(a, b))`. -/
def abMem (x y : String) : Bool := x ∈ aSet ∧ y ∈ bSet

/-- The `possible_eps` list of `_list_all`: the indices `i ∈ [1, len)` with
`(splitted[i-1], splitted[i]) ∈ ab`, then `len` if the last unit is in `c`.
Callers guarantee `l ≠ []` (Python `splitted[-1]` would raise otherwise). -/
def possible_eps (l : List String) : List ℕ :=
  (List.range l.length).filter
      (fun i => 0 < i ∧ abMem (l.getD (i - 1) "") (l.getD i "")) ++
    (if l.getLastD "" ∈ cSet then [l.length] else [])

/-- Python `list.insert(pos, a)`: insert before index `pos`, appending when
`pos` is past the end. -/
def pyInsert (a : α) : List α → ℕ → List α
  | l, 0 => a :: l
  | [], _ + 1 => [a]
  | x :: xs, n + 1 => x :: pyInsert a xs n

/-- The insertion loop `for shift, pos in enumerate(possible_eps):
splitted.insert(pos + shift, 'ε')`, with `shift` the running enumeration
index. -/
def applyIns (eps : String) : List String → List ℕ → ℕ → List String
  | l, [], _ => l
  | l, p :: ps, shift => applyIns eps (pyInsert eps l (p + shift)) ps (shift + 1)

/-- The token sequence after silent-unit insertion, as built by `_list_all`. -/
def insert_eps (l : List String) : List String :=
  applyIns "ε" l (possible_eps l) 0

/-!
Candidate enumeration and orthographic filtering.
-/

/-- The `vowels` string of `_list_all`. -/
def vowels : List Char := "ёуеыаоэяию".toList

/-- The `consonants` string of `_list_all`. -/
def consonants : List Char := "цкнгшщзхфвпрлджчсмтб".toList

/-- Python `s[0]` of a rendering.  The placeholder result for the empty
string is never consulted: every branch that reads `c[0]` first checks
`c != ''` or is unreachable for an empty rendering (see the proofs below);
Python would raise there, so any total extension is observationally equal. -/
def firstc (s : String) : Char := s.toList.headD '?'

/-- Python `s[-1]` of a rendering, with the same unreachable-default remark
as `firstc`. -/
def lastc (s : String) : Char := s.toList.getLastD '?'

/-- Python `variant[i-1]` where `i` may be `0`: negative indices wrap, so
`variant[-1]` is the last element. -/
def prevRend (variant : List String) (i : ℕ) : String :=
  if i = 0 then variant.getLastD "" else variant.getD (i - 1) ""

/-- The eight `if ... break` tests of the enumeration loop in `_list_all`,
at position `i` with rendering `c`; `true` means the candidate is rejected
at this position. -/
def breakAt (splitted variant : List String) (L i : ℕ) (c : String) : Bool :=
  -- ъ/ь cannot be in the beginning
  (i = 0 ∧ firstc c ∈ (['ъ', 'ь'] : List Char)) ∨
  -- ъ/ь/ы cannot be after a vowel
  (0 < i ∧ c ≠ "" ∧ firstc c ∈ (['ь', 'ъ', 'ы'] : List Char) ∧
    lastc (variant.getD (i - 1) "") ∈ vowels) ∨
  -- й cannot be after a consonant
  (0 < i ∧ c = "й" ∧ lastc (variant.getD (i - 1) "") ∈ consonants) ∨
  -- йо, йя... cannot be after a consonant in the last pos
  (i = L - 1 ∧ c ≠ "" ∧ firstc c = 'й' ∧ lastc (prevRend variant i) ∈ consonants) ∨
  -- й cannot be in the beginning
  (i = 0 ∧ c = "й") ∨
  -- y -> ий/ый can be only in the end of the word
  ((c = "ий" ∨ c = "ый") ∧ i ≠ L - 1) ∨
  -- ye -> е cannot be between two consonants
  (c = "е" ∧ splitted.getD i "" = "ye" ∧ 0 < i ∧ i < L - 1 ∧
    lastc (variant.getD (i - 1) "") ∈ consonants ∧
    firstc (variant.getD (i + 1) "") ∈ consonants) ∨
  -- ye -> cannot be after a consonant before the end
  (i = L - 1 ∧ c = "е" ∧ splitted.getD i "" = "ye" ∧
    lastc (prevRend variant i) ∈ consonants)

/-- A candidate survives the `for ... else` loop iff no position triggers a
`break`. -/
def validVariant (splitted variant : List String) : Bool :=
  (List.range variant.length).all
    (fun i => ¬ breakAt splitted variant splitted.length i (variant.getD i ""))

/-- `itertools.product` over a list of choice lists, first coordinate varying
slowest, as in the source's `product(*[self.eng2rus_dict[i] for i in splitted])`. -/
def listProd : List (List α) → List (List α)
  | [] => [[]]
  | l :: ls => l.flatMap (fun x => (listProd ls).map (fun v => x :: v))

/-- `BackTransliterator._list_all`: tokenize, insert silent units, look every
unit up in the dictionary, enumerate the product and filter by the
orthographic constraints.  `none` models the `IndexError` raised by
`splitted[-1]` when no token matched, or a `KeyError` of the dictionary
lookup. -/
def list_all (word : String) : Option (List String × List (List String)) :=
  match tokenize word with
  | [] => none
  | t :: ts =>
      let splitted := insert_eps (t :: ts)
      (splitted.mapM eng2rus_get).map (fun choices =>
        (splitted, (listProd choices).filter (validVariant splitted)))

/-!
Scoring and prediction.
-/

/-- The `PositionalVariant` namedtuple. -/
structure PositionalVariant where
  eng : String
  emits : String
  after : String
  before : String
deriving DecidableEq, Repr

/-- A probability table: `none` is the untrained state (`self.probs is None`);
`some pr` models a fitted `defaultdict` through its total lookup function
`pr`, with `pr pv = 0` for absent keys (`self.probs.get(pv, 0)`). -/
def ProbTable := Option (PositionalVariant → ℚ)

/-- `BackTransliterator._probability`. -/
def probability (pr : PositionalVariant → ℚ) (pv : PositionalVariant) : ℚ :=
  if pv.eng ∈ single_elements then 1 else pr pv

/-- The positional variant built at index `i` of the zipped
`(splitted, possibility)` pair in `predict_proba` and `fit`. -/
def pvAt (splitted : List String) (L i : ℕ) (e r : String) : PositionalVariant :=
  { eng := e, emits := r,
    after := if 0 < i then splitted.getD (i - 1) "" else "^",
    before := if i < L - 1 then splitted.getD (i + 1) "" else "$" }

/-- The probability assigned to one possibility in `predict_proba`: `1/L`
with no table, otherwise the product of the positional factors. -/
def scoreOf (pr? : ProbTable) (splitted : List String) (L : ℕ)
    (poss : List String) : ℚ :=
  match pr? with
  | none => 1 / L
  | some pr =>
      ((splitted.zip poss).enum.map
        (fun q => probability pr (pvAt splitted L q.1 q.2.1 q.2.2))).prod

/-- Joining a possibility into a restoration string, `''.join(possibility)`. -/
def restoredOf (poss : List String) : String := String.join poss

/-- The comparison underlying `res.sort(reverse=True)`: Python sorts pairs
lexicographically (probability first, then code-point order on the string),
and `reverse=True` flips the whole comparison, so the result is
non-increasing in this relation read left-to-right. -/
def pairGe (x y : ℚ × String) : Prop :=
  y.1 < x.1 ∨ (x.1 = y.1 ∧ y.2.toList ≤ x.2.toList)

instance : DecidableRel pairGe := fun x y => by
  unfold pairGe; infer_instance

/-- `BackTransliterator.predict_proba`: `none` propagates an exception from
`_list_all`. -/
def predict_proba (pr? : ProbTable) (word : String) : Option (List (ℚ × String)) :=
  (list_all word).map (fun sp =>
    let splitted := sp.1
    let L := splitted.length
    let res := (sp.2.map (fun poss => (scoreOf pr? splitted L poss, restoredOf poss))).filter
      (fun p => 0 < p.1)
    List.insertionSort pairGe res)

/-- `BackTransliterator.predict`. -/
def predict (pr? : ProbTable) (word : String) : Option (List String) :=
  (predict_proba pr? word).map (fun l => l.map (fun p => p.2))

/-!
Fitting.

`fit` re-derives the Latin form of every training word through the external
`iuliia` transliteration (not part of this repository), so the embedding is
parameterised by an arbitrary `translate : String → String`.  The two
`defaultdict(int)` counters are recovered from the flat list of positional
variants accumulated over the corpus: `self.probs[pv]` before normalization
is the multiplicity of `pv` in that list, and `count[(after, eng, before)]`
is the number of accumulated variants sharing that context, because the two
are always incremented together.
-/

/-- The context key `(pv.after, pv.eng, pv.before)` used by `count` and the
normalization loop of `fit`. -/
def ctx (pv : PositionalVariant) : String × String × String :=
  (pv.after, pv.eng, pv.before)

/-- The positional variants accumulated by `fit` for one training word: run
`_list_all` on the re-derived Latin form, linear-scan for the first
possibility whose concatenation is the original word, and record a variant
for every unit outside `single_elements`; no match contributes nothing. -/
def wordPVs (translate : String → String) (word : String) :
    Option (List PositionalVariant) :=
  (list_all (translate word)).map (fun sp =>
    let splitted := sp.1
    let L := splitted.length
    match sp.2.find? (fun poss => restoredOf poss = word) with
    | some poss =>
        ((splitted.zip poss).enum.filterMap (fun q =>
          if q.2.1 ∈ single_elements then none
          else some (pvAt splitted L q.1 q.2.1 q.2.2)))
    | none => [])

/-- All positional-variant increments of `fit` over a corpus, in corpus
order; `none` models an exception escaping the training loop. -/
def fitOccs (translate : String → String) (words : List String) :
    Option (List PositionalVariant) :=
  (words.mapM (wordPVs translate)).map List.flatten

/-- The normalized probability table built by `fit` from the accumulated
increments: each stored count divided by its context total. -/
def fitProbs (occs : List PositionalVariant) (pv : PositionalVariant) : ℚ :=
  (occs.count pv : ℚ) / (occs.countP (fun q => ctx q = ctx pv) : ℚ)

/-- `BackTransliterator.fit` as a whole: the table resulting from training. -/
def fit (translate : String → String) (words : List String) : Option ProbTable :=
  (fitOccs translate words).map (fun occs => some (fitProbs occs))

/-!
Specification-side definitions.

`specIns` follows the words of the silent-unit-insertion contract (spec
§4.2): one placeholder between each adjacent pair in `A × B`, one appended
after a final unit in `C`, nothing else.  It is compared with the source's
shifted-index insertion loop `insert_eps`.

`units` and `lang` describe the words that are concatenations of
romanization units — the well-formed inputs of the tokenizer-totality
property (spec §4.1/§8).
-/

/-- Modelled from the spec: insert one placeholder between each adjacent
pair `(left, right) ∈ A × B` and append one placeholder when the final
token lies in `C`. -/
def specIns : List String → List String
  | [] => []
  | [x] => x :: (if x ∈ cSet then ["ε"] else [])
  | x :: y :: rest =>
      x :: ((if abMem x y then ["ε"] else []) ++ specIns (y :: rest))

/-- The romanization units matchable by the tokenizer grammar, lower-case. -/
def units : List (List Char) :=
  [['s','h','c','h'],
   ['c','h'], ['s','h'], ['k','h'], ['z','h'],
   ['y','a'], ['y','o'], ['y','e'], ['y','u'], ['y','i'],
   ['y'],
   ['a'], ['o'], ['e'], ['i'], ['u'],
   ['t','s'],
   ['s'], ['k'], ['z'],
   ['n'], ['g'], ['f'], ['v'], ['p'], ['r'], ['l'], ['d'], ['m'], ['t'], ['b']]

/-- Words over the unit vocabulary: every concatenation of romanization
units.  These are the well-formed tokenizer inputs of the spec. -/
inductive lang : List Char → Prop
  | nil : lang []
  | cons (u rest : List Char) : u ∈ units → lang rest → lang (u ++ rest)

/-- The letters occurring in the romanization units: the Latin alphabet the
tokenizer grammar draws on. -/
def latinAlphabet : List Char :=
  ['a', 'b', 'c', 'd', 'e', 'f', 'g', 'h', 'i', 'k', 'l', 'm', 'n', 'o', 'p',
   'r', 's', 't', 'u', 'v', 'y', 'z']

/-!
Helper lemmas about the insertion loop.
-/

lemma applyIns_cons (eps : String) (x : String) :
    ∀ (ps : List ℕ) (xs : List String) (s : ℕ),
      applyIns eps (x :: xs) (ps.map (· + 1)) s = x :: applyIns eps xs ps s
  | [], _, _ => rfl
  | p :: ps, xs, s => by
    simp only [List.map_cons, applyIns]
    have h1 : p + 1 + s = (p + s) + 1 := by omega
    rw [h1]
    show applyIns eps (x :: pyInsert eps xs (p + s)) (ps.map (· + 1)) (s + 1) = _
    rw [applyIns_cons eps x ps (pyInsert eps xs (p + s)) (s + 1)]

lemma applyIns_shift (eps : String) :
    ∀ (ps : List ℕ) (l : List String) (s : ℕ), (∀ p ∈ ps, 1 ≤ p) →
      applyIns eps l (ps.map (· - 1)) (s + 1) = applyIns eps l ps s
  | [], _, _, _ => rfl
  | p :: ps, l, s, h => by
    simp only [List.map_cons, applyIns]
    have h1 : p - 1 + (s + 1) = p + s := by
      have := h p (List.mem_cons_self p ps)
      omega
    rw [h1]
    exact applyIns_shift eps ps (pyInsert eps l (p + s)) (s + 1)
      (fun q hq => h q (List.mem_cons_of_mem p hq))

lemma possible_eps_pos (l : List String) : ∀ p ∈ possible_eps l, 1 ≤ p := by
  intro p hp
  unfold possible_eps at hp
  rcases List.mem_append.mp hp with h | h
  · have := List.of_mem_filter h
    simp only [decide_eq_true_eq] at this
    omega
  · split at h
    · rename_i hc
      rcases List.mem_singleton.mp h with rfl
      cases l with
      | nil => simp [List.getLastD] at hc; exact absurd hc (by simp [cSet])
      | cons a as => simp
    · simp at h

lemma possible_eps_one (x : String) :
    possible_eps [x] = if x ∈ cSet then [1] else [] := by
  have h1 : List.range 1 = [0] := by decide
  simp [possible_eps, h1, List.getLastD]

lemma getLastD_cons2 (x y : String) (rest : List String) :
    (x :: y :: rest).getLastD "" = (y :: rest).getLastD "" := by
  rw [List.getLastD_eq_getLast?, List.getLastD_eq_getLast?]
  simp [List.getLast?]

lemma possible_eps_cons2 (x y : String) (rest : List String) :
    possible_eps (x :: y :: rest) =
      (if abMem x y then [1] else []) ++ (possible_eps (y :: rest)).map (· + 1) := by
  unfold possible_eps
  have hlen : (x :: y :: rest).length = rest.length + 2 := by simp
  have hlen2 : (y :: rest).length = rest.length + 1 := by simp
  rw [hlen, hlen2]
  simp only [List.range_succ_eq_map]
  rw [getLastD_cons2]
  simp only [List.map_cons, List.filter_cons, List.map_map, List.filter_map,
    List.map_append]
  have hc0 : (decide (0 < 0 ∧ abMem ((x :: y :: rest).getD (0 - 1) "")
      ((x :: y :: rest).getD 0 "") = true)) = false := by simp
  have hc0' : (decide (0 < 0 ∧ abMem ((y :: rest).getD (0 - 1) "")
      ((y :: rest).getD 0 "") = true)) = false := by simp
  have hc1 : (decide (0 < 1 ∧ abMem ((x :: y :: rest).getD (1 - 1) "")
      ((x :: y :: rest).getD 1 "") = true)) = abMem x y := by
    simp [List.getD]
  have hfun : ((fun i => decide (0 < i ∧ abMem ((x :: y :: rest).getD (i - 1) "")
        ((x :: y :: rest).getD i "") = true)) ∘ (Nat.succ ∘ Nat.succ)) =
      ((fun i => decide (0 < i ∧ abMem ((y :: rest).getD (i - 1) "")
        ((y :: rest).getD i "") = true)) ∘ Nat.succ) := by
    funext i
    simp [List.getD_cons_succ]
  rw [hc0, hc0', hc1, hfun]
  have hmm : (List.map (Nat.succ ∘ Nat.succ) (List.filter
        ((fun i => decide (0 < i ∧ abMem ((y :: rest).getD (i - 1) "")
          ((y :: rest).getD i "") = true)) ∘ Nat.succ) (List.range rest.length))) =
      List.map (fun i => i + 1) (List.map Nat.succ (List.filter
        ((fun i => decide (0 < i ∧ abMem ((y :: rest).getD (i - 1) "")
          ((y :: rest).getD i "") = true)) ∘ Nat.succ) (List.range rest.length))) := by
    rw [List.map_map]
  rw [hmm]
  by_cases hcs : (y :: rest).getLast?.getD "" ∈ cSet <;>
    by_cases habm : abMem x y <;>
      simp [hcs, habm, List.getLastD_eq_getLast?]

lemma map_sub_add (ps : List ℕ) (h : ∀ p ∈ ps, 1 ≤ p) :
    (ps.map (· - 1)).map (· + 1) = ps := by
  rw [List.map_map]
  have : ∀ p ∈ ps, (((· + 1) ∘ (· - 1)) p) = id p := by
    intro p hp
    have := h p hp
    simp only [Function.comp_apply, id]
    omega
  rw [List.map_congr_left this, List.map_id]

lemma insert_eps_eq_specIns : ∀ l : List String, l ≠ [] → insert_eps l = specIns l
  | [], h => absurd rfl h
  | [x], _ => by
    unfold insert_eps
    rw [possible_eps_one]
    by_cases hc : x ∈ cSet
    · simp only [hc, if_true, applyIns, pyInsert, specIns]
    · simp only [hc, if_false, applyIns, pyInsert, specIns]
  | x :: y :: rest, _ => by
    unfold insert_eps
    rw [possible_eps_cons2]
    have hpos := possible_eps_pos (y :: rest)
    have ih : applyIns "ε" (y :: rest) (possible_eps (y :: rest)) 0 =
        specIns (y :: rest) :=
      insert_eps_eq_specIns (y :: rest) (by simp)
    have hshift : applyIns "ε" (y :: rest)
        ((possible_eps (y :: rest)).map (· - 1)) 1 = specIns (y :: rest) := by
      have h3 := applyIns_shift "ε" (possible_eps (y :: rest)) (y :: rest) 0 hpos
      simpa using h3.trans ih
    by_cases habm : abMem x y
    · rw [if_pos habm]
      simp only [List.singleton_append, applyIns]
      show applyIns "ε" (pyInsert "ε" (x :: y :: rest) 1)
        ((possible_eps (y :: rest)).map (· + 1)) 1 = _
      have hpy : pyInsert "ε" (x :: y :: rest) 1 = x :: "ε" :: y :: rest := rfl
      rw [hpy, applyIns_cons]
      have h2 : possible_eps (y :: rest) =
          ((possible_eps (y :: rest)).map (· - 1)).map (· + 1) :=
        (map_sub_add _ hpos).symm
      rw [h2, applyIns_cons, hshift]
      simp [specIns, habm]
    · rw [if_neg habm]
      rw [List.nil_append, applyIns_cons, ih]
      simp [specIns, habm]

end Backtransliterator

namespace Backtransliterator

lemma list_all_dom : list_all "dom" =
    some (["d", "o", "m", "ε"], [["д", "о", "м", ""], ["д", "о", "м", "ь"]]) := by
  decide

lemma predict_proba_dom : predict_proba none "dom" =
    some [(1/4, "домь"), (1/4, "дом")] := by
  have h : ¬ (['д','о','м','ь'] ≤ ['д','о','м']) := by decide
  rw [predict_proba, list_all_dom]
  simp only [Option.map_some]
  norm_num [List.insertionSort, List.orderedInsert, pairGe, scoreOf, restoredOf,
    String.join, h]
  constructor <;> decide

end Backtransliterator

namespace Backtransliterator

instance : IsTotal (ℚ × String) pairGe := by
  constructor
  intro a b
  rcases lt_trichotomy a.1 b.1 with h | h | h
  · exact Or.inr (Or.inl h)
  · rcases le_total a.2.toList b.2.toList with hs | hs
    · exact Or.inr (Or.inr ⟨h.symm, hs⟩)
    · exact Or.inl (Or.inr ⟨h, hs⟩)
  · exact Or.inl (Or.inl h)

instance : IsTrans (ℚ × String) pairGe := by
  constructor
  intro a b c hab hbc
  rcases hab with h1 | ⟨h1, hs1⟩
  · rcases hbc with h2 | ⟨h2, _⟩
    · exact Or.inl (h2.trans h1)
    · exact Or.inl (h2 ▸ h1)
  · rcases hbc with h2 | ⟨h2, hs2⟩
    · exact Or.inl (h1 ▸ h2)
    · exact Or.inr ⟨h1.trans h2, hs2.trans hs1⟩

/-- C2 (amended): the returned list is ordered by descending probability
with ties broken by descending (not ascending) restoration string. -/
theorem claim_C2 (pr? : ProbTable) (word : String) (l : List (ℚ × String))
    (h : predict_proba pr? word = some l) :
    l.Sorted (fun a b : ℚ × String =>
      b.1 < a.1 ∨ (a.1 = b.1 ∧ b.2 ≤ a.2)) := by
  have hs : l.Sorted pairGe := by
    rw [predict_proba] at h
    rcases Option.map_eq_some'.mp h with ⟨sp, _, rfl⟩
    exact List.sorted_insertionSort pairGe _
  refine hs.imp ?_
  intro a b hab
  rcases hab with h1 | ⟨h1, h2⟩
  · exact Or.inl h1
  · exact Or.inr ⟨h1, String.le_iff_toList_le.mpr h2⟩

theorem claim_C2_witness :
    ∃ l, predict_proba none "dom" = some l ∧
      l.Sorted (fun a b : ℚ × String => b.1 < a.1 ∨ (a.1 = b.1 ∧ b.2 ≤ a.2)) :=
  ⟨_, predict_proba_dom, claim_C2 none "dom" _ predict_proba_dom⟩

/-- C2 (counterexample): on the word "dom" with no table the two candidates
have equal probability and are returned with the restoration strings in
descending, not ascending, lexicographic order. -/
theorem claim_C2_cex :
    predict_proba none "dom" = some [(1/4, "домь"), (1/4, "дом")] ∧
    ("дом" : String) < "домь" := by
  refine ⟨predict_proba_dom, ?_⟩
  exact String.lt_iff_toList_lt.mpr (by decide)

end Backtransliterator

namespace Backtransliterator

/-- C1 (counterexample): tokenizing "dom" does yield ["d","o","m"], but a
placeholder IS appended (the final unit "m" lies in set C), and "дом" is
returned with probability 1/4, not 1/3. -/
theorem claim_C1_cex :
    tokenize "dom" = ["d", "o", "m"] ∧
    (list_all "dom").map Prod.fst = some ["d", "o", "m", "ε"] ∧
    predict_proba none "dom" = some [(1/4, "домь"), (1/4, "дом")] ∧
    ((1/3 : ℚ), ("дом" : String)) ∉ ([(1/4, "домь"), (1/4, "дом")] : List (ℚ × String)) := by
  refine ⟨by decide, by rw [list_all_dom]; rfl, predict_proba_dom, ?_⟩
  intro hmem
  rcases List.mem_cons.mp hmem with h | h
  · have : (1/3 : ℚ) = 1/4 := congrArg Prod.fst h
    norm_num at this
  · rcases List.mem_singleton.mp h with h'
    have : (1/3 : ℚ) = 1/4 := congrArg Prod.fst h'
    norm_num at this

/-- C1 (amended): tokenizing "dom" yields units ["d","o","m"]; since "m"
lies in set C a silent unit is appended, giving the token sequence
["d","o","m","ε"], and with no trained table predict_proba("dom") includes
the restoration "дом" with probability exactly 1/4. -/
theorem claim_C1 :
    tokenize "dom" = ["d", "o", "m"] ∧
    (list_all "dom").map Prod.fst = some ["d", "o", "m", "ε"] ∧
    ∃ l, predict_proba none "dom" = some l ∧ ((1/4 : ℚ), ("дом" : String)) ∈ l := by
  refine ⟨by decide, by rw [list_all_dom]; rfl, ⟨_, predict_proba_dom, ?_⟩⟩
  simp

end Backtransliterator

namespace Backtransliterator

/-- C3 (amended): a word on which tokenization finds no unit leads
`_list_all` to evaluate `splitted[-1]` on an empty list, raising an
IndexError (modelled as `none`); predict and predict_proba propagate the
failure instead of returning an empty candidate list. -/
theorem claim_C3 (pr? : ProbTable) (word : String) (h : tokenize word = []) :
    predict_proba pr? word = none ∧ predict pr? word = none := by
  have hla : list_all word = none := by
    rw [list_all, h]
  rw [predict_proba, hla]
  exact ⟨rfl, by rw [predict, predict_proba, hla]; rfl⟩

theorem claim_C3_witness :
    tokenize "qqq" = [] ∧
    (predict_proba none "qqq" = none ∧ predict none "qqq" = none) :=
  ⟨by decide, claim_C3 none "qqq" (by decide)⟩

/-- C3 (counterexample): "qqq" consists only of characters outside the
romanization alphabet, its token sequence is empty, and prediction fails
(`none`, the modelled IndexError) instead of returning an empty list. -/
theorem claim_C3_cex :
    (∀ c ∈ "qqq".toList, c ∉ latinAlphabet) ∧
    tokenize "qqq" = [] ∧
    predict_proba none "qqq" = none ∧ predict none "qqq" = none ∧
    predict_proba none "qqq" ≠ some [] ∧ predict none "qqq" ≠ some [] := by
  refine ⟨by decide, by decide, rfl, rfl, ?_, ?_⟩
  · rw [show predict_proba none "qqq" = none from rfl]
    simp
  · rw [show predict none "qqq" = none from rfl]
    simp

/-- C9: tokenizing "rossiya" splits the trailing "ya" as one unit, and
"россия" is among the enumerated valid restorations. -/
theorem claim_C9 :
    tokenize "rossiya" = ["r", "o", "s", "s", "i", "ya"] ∧
    (tokenize "rossiya").getLast? = some "ya" ∧
    ∃ sp, list_all "rossiya" = some sp ∧
      ∃ poss ∈ sp.2, restoredOf poss = "россия" := by
  refine ⟨by decide, by decide,
    ⟨(["r", "o", "s", "ε", "s", "i", "ya"],
      [["р", "о", "с", "", "с", "и", "я"], ["р", "о", "с", "", "с", "и", "йа"],
       ["р", "о", "с", "ь", "с", "и", "я"], ["р", "о", "с", "ь", "с", "и", "йа"]]),
      by decide, ⟨["р", "о", "с", "", "с", "и", "я"], by decide, by decide⟩⟩⟩

end Backtransliterator

namespace Backtransliterator

lemma specIns_shape (x : String) (xs : List String) :
    ∃ t, specIns (x :: xs) = x :: t := by
  cases xs with
  | nil => exact ⟨_, rfl⟩
  | cons y rest => exact ⟨_, rfl⟩

lemma list_all_shape {w : String} {sp : List String × List (List String)}
    (h : list_all w = some sp) :
    (∃ x t, sp.1 = x :: t) ∧
      ∃ cands : List (List String), sp.2 = cands.filter (validVariant sp.1) := by
  rw [list_all] at h
  cases htok : tokenize w with
  | nil => rw [htok] at h; exact absurd h (by simp)
  | cons t ts =>
      rw [htok] at h
      rcases Option.map_eq_some'.mp h with ⟨choices, _, rfl⟩
      constructor
      · rw [insert_eps_eq_specIns (t :: ts) (by simp)]
        rcases specIns_shape t ts with ⟨tl, htl⟩
        exact ⟨t, tl, htl⟩
      · exact ⟨listProd choices, rfl⟩

/-- C7: with no probability table every surviving candidate is scored with
the same probability `1/L`, `L` the token-sequence length after silent-unit
insertion, and the returned list is exactly the scored survivors. -/
theorem claim_C7 (w : String) (sp : List String × List (List String))
    (h : list_all w = some sp) :
    ∃ l, predict_proba none w = some l ∧
      (∀ p ∈ l, p.1 = 1 / (sp.1.length : ℚ)) ∧
      l.Perm (sp.2.map (fun poss => ((1 / (sp.1.length : ℚ)), restoredOf poss))) := by
  rcases (list_all_shape h).1 with ⟨x, t, hx⟩
  have hLpos : (0 : ℚ) < 1 / (sp.1.length : ℚ) := by
    have : 0 < sp.1.length := by rw [hx]; simp
    positivity
  rw [predict_proba, h]
  simp only [Option.map_some']
  have hsc : (fun poss => (scoreOf none sp.1 sp.1.length poss, restoredOf poss)) =
      (fun poss => ((1 / (sp.1.length : ℚ)), restoredOf poss)) := rfl
  rw [hsc]
  have hfe : (sp.2.map (fun poss => ((1 / (sp.1.length : ℚ)), restoredOf poss))).filter
      (fun p => 0 < p.1) = sp.2.map (fun poss => ((1 / (sp.1.length : ℚ)), restoredOf poss)) := by
    rw [List.filter_eq_self]
    intro a ha
    rcases List.mem_map.mp ha with ⟨poss, _, rfl⟩
    simpa using hLpos
  rw [hfe]
  refine ⟨_, rfl, ?_, List.perm_insertionSort pairGe _⟩
  intro p hp
  have hmem := (List.perm_insertionSort pairGe _).mem_iff.mp hp
  rcases List.mem_map.mp hmem with ⟨poss, _, rfl⟩
  rfl

theorem claim_C7_witness :
    ∃ l, predict_proba none "dom" = some l ∧
      (∀ p ∈ l, p.1 = 1 / ((["d", "o", "m", "ε"] : List String).length : ℚ)) ∧
      l.Perm ([["д", "о", "м", ""], ["д", "о", "м", "ь"]].map
        (fun poss => ((1 / ((["d", "o", "m", "ε"] : List String).length : ℚ)),
          restoredOf poss))) :=
  claim_C7 "dom" (["d", "o", "m", "ε"], [["д", "о", "м", ""], ["д", "о", "м", "ь"]])
    (by decide)

end Backtransliterator

namespace Backtransliterator

/-- C6: every candidate returned by the enumerator satisfies, at every
position, all orthographic constraints of the filtering loop: no hard/soft
sign word-initially, no sign/ы after a vowel, no й word-initially or after a
consonant (also й-initial renderings in last position), ий/ый only in last
position, and the two restrictions on the "ye" → "е" rendering. -/
theorem claim_C6 (w : String) (sp : List String × List (List String))
    (h : list_all w = some sp) :
    ∀ v ∈ sp.2, ∀ i < v.length,
      ¬(i = 0 ∧ firstc (v.getD i "") ∈ (['ъ', 'ь'] : List Char)) ∧
      ¬(0 < i ∧ v.getD i "" ≠ "" ∧ firstc (v.getD i "") ∈ (['ь', 'ъ', 'ы'] : List Char) ∧
        lastc (v.getD (i - 1) "") ∈ vowels) ∧
      ¬(0 < i ∧ v.getD i "" = "й" ∧ lastc (v.getD (i - 1) "") ∈ consonants) ∧
      ¬(i = sp.1.length - 1 ∧ v.getD i "" ≠ "" ∧ firstc (v.getD i "") = 'й' ∧
        lastc (prevRend v i) ∈ consonants) ∧
      ¬(i = 0 ∧ v.getD i "" = "й") ∧
      ¬((v.getD i "" = "ий" ∨ v.getD i "" = "ый") ∧ i ≠ sp.1.length - 1) ∧
      ¬(v.getD i "" = "е" ∧ sp.1.getD i "" = "ye" ∧ 0 < i ∧ i < sp.1.length - 1 ∧
        lastc (v.getD (i - 1) "") ∈ consonants ∧
        firstc (v.getD (i + 1) "") ∈ consonants) ∧
      ¬(i = sp.1.length - 1 ∧ v.getD i "" = "е" ∧ sp.1.getD i "" = "ye" ∧
        lastc (prevRend v i) ∈ consonants) := by
  intro v hv i hi
  rcases (list_all_shape h).2 with ⟨cands, hc⟩
  rw [hc] at hv
  have hvalid : validVariant sp.1 v = true := List.of_mem_filter hv
  rw [validVariant, List.all_eq_true] at hvalid
  have hb := hvalid i (List.mem_range.mpr hi)
  have hb2 : breakAt sp.1 v sp.1.length i (v.getD i "") = false := by
    revert hb
    cases breakAt sp.1 v sp.1.length i (v.getD i "") <;> simp
  rw [breakAt] at hb2
  rw [decide_eq_false_iff_not] at hb2
  simp only [not_or] at hb2
  exact hb2

end Backtransliterator

namespace Backtransliterator

theorem claim_C6_witness :
    ¬((3 : ℕ) = 0 ∧ firstc ((["д", "о", "м", "ь"] : List String).getD 3 "") ∈ (['ъ', 'ь'] : List Char)) ∧
    ¬((0 : ℕ) < 3 ∧ (["д", "о", "м", "ь"] : List String).getD 3 "" ≠ "" ∧
      firstc ((["д", "о", "м", "ь"] : List String).getD 3 "") ∈ (['ь', 'ъ', 'ы'] : List Char) ∧
      lastc ((["д", "о", "м", "ь"] : List String).getD (3 - 1) "") ∈ vowels) ∧
    ¬((0 : ℕ) < 3 ∧ (["д", "о", "м", "ь"] : List String).getD 3 "" = "й" ∧
      lastc ((["д", "о", "м", "ь"] : List String).getD (3 - 1) "") ∈ consonants) ∧
    ¬((3 : ℕ) = (["d", "o", "m", "ε"] : List String).length - 1 ∧
      (["д", "о", "м", "ь"] : List String).getD 3 "" ≠ "" ∧
      firstc ((["д", "о", "м", "ь"] : List String).getD 3 "") = 'й' ∧
      lastc (prevRend ["д", "о", "м", "ь"] 3) ∈ consonants) ∧
    ¬((3 : ℕ) = 0 ∧ (["д", "о", "м", "ь"] : List String).getD 3 "" = "й") ∧
    ¬(((["д", "о", "м", "ь"] : List String).getD 3 "" = "ий" ∨
       (["д", "о", "м", "ь"] : List String).getD 3 "" = "ый") ∧
      (3 : ℕ) ≠ (["d", "o", "m", "ε"] : List String).length - 1) ∧
    ¬((["д", "о", "м", "ь"] : List String).getD 3 "" = "е" ∧
      (["d", "o", "m", "ε"] : List String).getD 3 "" = "ye" ∧ (0 : ℕ) < 3 ∧
      (3 : ℕ) < (["d", "o", "m", "ε"] : List String).length - 1 ∧
      lastc ((["д", "о", "м", "ь"] : List String).getD (3 - 1) "") ∈ consonants ∧
      firstc ((["д", "о", "м", "ь"] : List String).getD (3 + 1) "") ∈ consonants) ∧
    ¬((3 : ℕ) = (["d", "o", "m", "ε"] : List String).length - 1 ∧
      (["д", "о", "м", "ь"] : List String).getD 3 "" = "е" ∧
      (["d", "o", "m", "ε"] : List String).getD 3 "" = "ye" ∧
      lastc (prevRend ["д", "о", "м", "ь"] 3) ∈ consonants) :=
  claim_C6 "dom" (["d", "o", "m", "ε"], [["д", "о", "м", ""], ["д", "о", "м", "ь"]])
    (by decide) ["д", "о", "м", "ь"] (by decide) 3 (by decide)

end Backtransliterator

namespace Backtransliterator

/-- C4: after fitting on any corpus (for any forward-transliteration
function), the stored probabilities of the positional variants sharing one
context key sum to exactly 1, and each stored probability lies in (0, 1]. -/
theorem claim_C4 (translate : String → String) (words : List String)
    (occs : List PositionalVariant) (h : fitOccs translate words = some occs) :
    ∀ pv ∈ occs,
      ((occs.dedup.filter (fun q => ctx q = ctx pv)).map (fitProbs occs)).sum = 1 ∧
      0 < fitProbs occs pv ∧ fitProbs occs pv ≤ 1 := by
  intro pv hpv
  have hT : 0 < occs.countP (fun q => decide (ctx q = ctx pv)) := by
    rw [List.countP_pos_iff]
    exact ⟨pv, hpv, by simp⟩
  have hTQ : (0 : ℚ) < (occs.countP (fun q => decide (ctx q = ctx pv)) : ℚ) := by
    exact_mod_cast hT
  refine ⟨?_, ?_, ?_⟩
  · have hmap : (occs.dedup.filter (fun q => ctx q = ctx pv)).map (fitProbs occs)
        = (occs.dedup.filter (fun q => ctx q = ctx pv)).map
            (fun q => ((occs.count q : ℚ) *
              ((occs.countP (fun r => decide (ctx r = ctx pv)) : ℚ))⁻¹)) := by
      apply List.map_congr_left
      intro q hq
      have hctx : ctx q = ctx pv := by
        have := List.of_mem_filter hq
        simpa using this
      rw [fitProbs, div_eq_mul_inv]
      simp only [hctx]
    rw [hmap, List.sum_map_mul_right]
    have hnum : ((occs.dedup.filter (fun q => ctx q = ctx pv)).map
        (fun q => ((occs.count q : ℕ) : ℚ))).sum =
        ((occs.countP (fun q => decide (ctx q = ctx pv)) : ℕ) : ℚ) := by
      rw [← List.sum_map_count_dedup_filter_eq_countP (fun q => decide (ctx q = ctx pv)) occs]
      rw [Nat.cast_list_sum, List.map_map]
      rfl
    rw [hnum]
    exact mul_inv_cancel₀ (ne_of_gt hTQ)
  · apply div_pos
    · exact_mod_cast List.count_pos_iff.mpr hpv
    · exact hTQ
  · rw [fitProbs, div_le_one hTQ]
    have : occs.count pv ≤ occs.countP (fun q => decide (ctx q = ctx pv)) := by
      rw [List.count_eq_countP]
      apply List.countP_mono_left
      intro x _ hx
      have : x = pv := by simpa using hx
      simp [this]
    exact_mod_cast this

theorem claim_C4_witness :
    (List.map (fitProbs [⟨"ε", "", "m", "$"⟩])
      (([⟨"ε", "", "m", "$"⟩] : List PositionalVariant).dedup.filter
        (fun q => ctx q = ctx ⟨"ε", "", "m", "$"⟩))).sum = 1 ∧
    0 < fitProbs [⟨"ε", "", "m", "$"⟩] ⟨"ε", "", "m", "$"⟩ ∧
    fitProbs [⟨"ε", "", "m", "$"⟩] ⟨"ε", "", "m", "$"⟩ ≤ 1 :=
  claim_C4 (fun _ => "dom") ["дом"] [⟨"ε", "", "m", "$"⟩] (by decide)
    ⟨"ε", "", "m", "$"⟩ (by decide)

end Backtransliterator

namespace Backtransliterator

lemma mem_pyInsert (a b : α) : ∀ (l : List α) (n : ℕ), a ∈ l → a ∈ pyInsert b l n
  | [], 0, h => absurd h (by simp)
  | x :: xs, 0, h => List.mem_cons_of_mem b h
  | [], _ + 1, h => absurd h (by simp)
  | x :: xs, n + 1, h => by
    rcases List.mem_cons.mp h with rfl | h'
    · exact List.mem_cons_self _ _
    · exact List.mem_cons_of_mem x (mem_pyInsert a b xs n h')

lemma mem_applyIns (a eps : String) :
    ∀ (ps : List ℕ) (l : List String) (s : ℕ), a ∈ l → a ∈ applyIns eps l ps s
  | [], _, _, h => h
  | p :: ps, l, s, h =>
      mem_applyIns a eps ps (pyInsert eps l (p + s)) (s + 1) (mem_pyInsert a eps l (p + s) h)

lemma mapM_eq_none {α β : Type} (f : α → Option β) :
    ∀ (l : List α) (x : α), x ∈ l → f x = none → l.mapM f = none := by
  intro l
  induction l with
  | nil => intro x hx; exact absurd hx (by simp)
  | cons a as ih =>
      intro x hx hfx
      rw [List.mapM_cons]
      rcases List.mem_cons.mp hx with rfl | h'
      · rw [hfx]; rfl
      · cases hfa : f a with
        | none => rfl
        | some b => rw [ih x h' hfx]; rfl

lemma eng2rus_get_upper {t : String} (c : Char) (hc : c ∈ t.toList)
    (hup : c.isUpper) : eng2rus_get t = none := by
  cases hfind : eng2rus_dict.find? (fun p => p.1 = t) with
  | none => rw [eng2rus_get, hfind]; rfl
  | some p =>
      have hmem : p ∈ eng2rus_dict := List.mem_of_find?_eq_some hfind
      have hpt : p.1 = t := by
        have := List.find?_some hfind
        simpa using this
      have hlow : ∀ q ∈ eng2rus_dict, ∀ ch ∈ q.1.toList, ¬ ch.isUpper := by decide
      exact absurd hup (hlow p hmem c (by rw [hpt]; exact hc))

/-- C10 (amended): the tokenizer pattern is case-insensitive and emits
matched uppercase spans verbatim (e.g. "Dom" tokenizes to ["D","o","m"]),
and any word whose emitted token sequence contains an uppercase letter
makes the unit dictionary lookup fail, so prediction raises (none) — the
prediction interface is total only over lowercase input.  (Uppercase
letters at positions where no alternative matches, such as a bare "C" or
"H", are instead silently skipped and prediction proceeds on the remaining
tokens: see the counterexample below.) -/
theorem claim_C10 :
    tokenize "Dom" = ["D", "o", "m"] ∧
    ∀ (w : String) (pr? : ProbTable),
      (∃ t ∈ tokenize w, ∃ c ∈ t.toList, c.isUpper) →
      predict_proba pr? w = none ∧ predict pr? w = none := by
  refine ⟨by decide, ?_⟩
  intro w pr? ⟨t, ht, c, hc, hup⟩
  have hla : list_all w = none := by
    rw [list_all]
    cases htok : tokenize w with
    | nil => rfl
    | cons a as =>
        have hmem : t ∈ insert_eps (a :: as) := by
          rw [htok] at ht
          exact mem_applyIns t "ε" (possible_eps (a :: as)) (a :: as) 0 ht
        have hnone := mapM_eq_none eng2rus_get (insert_eps (a :: as)) t hmem
          (eng2rus_get_upper c hc hup)
        show Option.map (fun choices => (insert_eps (a :: as),
          List.filter (validVariant (insert_eps (a :: as))) (listProd choices)))
            ((insert_eps (a :: as)).mapM eng2rus_get) = none
        rw [hnone]
        rfl
  rw [predict_proba, hla]
  exact ⟨rfl, by rw [predict, predict_proba, hla]; rfl⟩

theorem claim_C10_witness :
    predict_proba none "Dom" = none ∧ predict none "Dom" = none :=
  claim_C10.2 "Dom" none ⟨"D", by decide, 'D', by decide, by decide⟩

lemma list_all_Hm : list_all "Hm" =
    some (["m", "ε"], [["м", ""], ["м", "ь"]]) := by
  decide

lemma predict_proba_Hm : predict_proba none "Hm" =
    some [(1/2, "мь"), (1/2, "м")] := by
  have h : ¬ (['м','ь'] ≤ ['м']) := by decide
  rw [predict_proba, list_all_Hm]
  simp only [Option.map_some']
  norm_num [List.insertionSort, List.orderedInsert, pairGe, scoreOf, restoredOf,
    String.join, h]
  constructor <;> decide

/-- C10 (counterexample): "Hm" contains the uppercase letter 'H' of the
romanization alphabet, but 'h' alone matches no pattern alternative, so the
tokenizer silently skips it instead of emitting an uppercase token; no
dictionary lookup fails and predict / predict_proba return a normal result
rather than raising an exception. -/
theorem claim_C10_cex :
    'H' ∈ ("Hm" : String).toList ∧ ('H' : Char).isUpper ∧ 'h' ∈ latinAlphabet ∧
    tokenize "Hm" = ["m"] ∧
    predict_proba none "Hm" = some [(1/2, "мь"), (1/2, "м")] ∧
    predict none "Hm" = some ["мь", "м"] := by
  refine ⟨by decide, by decide, by decide, by decide, predict_proba_Hm, ?_⟩
  rw [predict, predict_proba_Hm]
  rfl

end Backtransliterator

namespace Backtransliterator

/-- C8: the silent-unit insertion step of `_list_all` — positions computed
against the original token sequence, then applied left-to-right with an
index shift — inserts exactly one placeholder between each adjacent pair in
`A × B`, appends exactly one placeholder when the final token lies in `C`,
and inserts nothing else (the structural description `specIns`). -/
theorem claim_C8 (x : String) (xs : List String) :
    insert_eps (x :: xs) = specIns (x :: xs) :=
  insert_eps_eq_specIns (x :: xs) (by simp)

end Backtransliterator

namespace Backtransliterator

lemma lowChars : ∀ c ∈ latinAlphabet, c.toLower = c := by decide

@[simp] lemma low_a : ('a' : Char).toLower = 'a' := by decide
@[simp] lemma low_b : ('b' : Char).toLower = 'b' := by decide
@[simp] lemma low_c : ('c' : Char).toLower = 'c' := by decide
@[simp] lemma low_d : ('d' : Char).toLower = 'd' := by decide
@[simp] lemma low_e : ('e' : Char).toLower = 'e' := by decide
@[simp] lemma low_f : ('f' : Char).toLower = 'f' := by decide
@[simp] lemma low_g : ('g' : Char).toLower = 'g' := by decide
@[simp] lemma low_h : ('h' : Char).toLower = 'h' := by decide
@[simp] lemma low_i : ('i' : Char).toLower = 'i' := by decide
@[simp] lemma low_k : ('k' : Char).toLower = 'k' := by decide
@[simp] lemma low_l : ('l' : Char).toLower = 'l' := by decide
@[simp] lemma low_m : ('m' : Char).toLower = 'm' := by decide
@[simp] lemma low_n : ('n' : Char).toLower = 'n' := by decide
@[simp] lemma low_o : ('o' : Char).toLower = 'o' := by decide
@[simp] lemma low_p : ('p' : Char).toLower = 'p' := by decide
@[simp] lemma low_r : ('r' : Char).toLower = 'r' := by decide
@[simp] lemma low_s : ('s' : Char).toLower = 's' := by decide
@[simp] lemma low_t : ('t' : Char).toLower = 't' := by decide
@[simp] lemma low_u : ('u' : Char).toLower = 'u' := by decide
@[simp] lemma low_v : ('v' : Char).toLower = 'v' := by decide
@[simp] lemma low_y : ('y' : Char).toLower = 'y' := by decide
@[simp] lemma low_z : ('z' : Char).toLower = 'z' := by decide

lemma lang_inv {r : List Char} (h : lang r) :
    r = [] ∨ ∃ u t, u ∈ units ∧ r = u ++ t ∧ lang t := by
  cases h with
  | nil => exact Or.inl rfl
  | cons u t hu ht => exact Or.inr ⟨u, t, hu, rfl, ht⟩

lemma lang_head_not_h {r : List Char} (hr : lang r) :
    ∀ x, r.head? = some x → ¬ x.toLower = 'h' := by
  intro x hx hlow
  rcases lang_inv hr with rfl | ⟨u, t, hu, rfl, ht⟩
  · simp at hx
  · fin_cases hu <;> simp at hx <;> subst hx <;> revert hlow <;> decide


lemma lang_step : ∀ u ∈ units, ∀ rest, lang rest →
    ∃ n, 1 ≤ n ∧ matchLen (u ++ rest) = some n ∧ lang ((u ++ rest).drop n) := by
  intro u hu rest hrest
  fin_cases hu
  · exact ⟨4, by omega, rfl, hrest⟩
  · exact ⟨2, by omega, rfl, hrest⟩
  · rcases lang_inv hrest with rfl | ⟨u2, r2, hu2, rfl, hr2⟩
    · exact ⟨2, by omega, rfl, lang.nil⟩
    · fin_cases hu2 <;>
        first
          | exact ⟨4, by omega, rfl, hr2⟩
          | exact ⟨2, by omega, rfl, hrest⟩
  · exact ⟨2, by omega, rfl, hrest⟩
  · exact ⟨2, by omega, rfl, hrest⟩
  · exact ⟨2, by omega, rfl, hrest⟩
  · exact ⟨2, by omega, rfl, hrest⟩
  · exact ⟨2, by omega, rfl, hrest⟩
  · exact ⟨2, by omega, rfl, hrest⟩
  · exact ⟨2, by omega, rfl, hrest⟩
  · rcases lang_inv hrest with rfl | ⟨u2, r2, hu2, rfl, hr2⟩
    · exact ⟨1, by omega, rfl, lang.nil⟩
    · fin_cases hu2 <;>
        first
          | exact ⟨2, by omega, rfl, hr2⟩
          | exact ⟨1, by omega, rfl, hrest⟩
          | (refine ⟨2, by omega, ?_, hr2⟩
             simp [matchLen, matchCore]
             exact lang_head_not_h hr2)
  · rcases lang_inv hrest with rfl | ⟨u2, r2, hu2, rfl, hr2⟩
    · exact ⟨1, by omega, rfl, lang.nil⟩
    · fin_cases hu2 <;>
        first
          | exact ⟨2, by omega, rfl, hr2⟩
          | exact ⟨1, by omega, rfl, hrest⟩
          | (refine ⟨2, by omega, ?_, hr2⟩
             simp [matchLen, matchCore]
             exact lang_head_not_h hr2)
  · rcases lang_inv hrest with rfl | ⟨u2, r2, hu2, rfl, hr2⟩
    · exact ⟨1, by omega, rfl, lang.nil⟩
    · fin_cases hu2 <;>
        first
          | exact ⟨2, by omega, rfl, hr2⟩
          | exact ⟨1, by omega, rfl, hrest⟩
          | (refine ⟨2, by omega, ?_, hr2⟩
             simp [matchLen, matchCore]
             exact lang_head_not_h hr2)
  · rcases lang_inv hrest with rfl | ⟨u2, r2, hu2, rfl, hr2⟩
    · exact ⟨1, by omega, rfl, lang.nil⟩
    · fin_cases hu2 <;>
        first
          | exact ⟨2, by omega, rfl, hr2⟩
          | exact ⟨1, by omega, rfl, hrest⟩
          | (refine ⟨2, by omega, ?_, hr2⟩
             simp [matchLen, matchCore]
             exact lang_head_not_h hr2)
  · rcases lang_inv hrest with rfl | ⟨u2, r2, hu2, rfl, hr2⟩
    · exact ⟨1, by omega, rfl, lang.nil⟩
    · fin_cases hu2 <;>
        first
          | exact ⟨2, by omega, rfl, hr2⟩
          | exact ⟨1, by omega, rfl, hrest⟩
          | (refine ⟨2, by omega, ?_, hr2⟩
             simp [matchLen, matchCore]
             exact lang_head_not_h hr2)
  · rcases lang_inv hrest with rfl | ⟨u2, r2, hu2, rfl, hr2⟩
    · exact ⟨1, by omega, rfl, lang.nil⟩
    · fin_cases hu2 <;>
        first
          | exact ⟨2, by omega, rfl, hr2⟩
          | exact ⟨1, by omega, rfl, hrest⟩
          | (refine ⟨2, by omega, ?_, hr2⟩
             simp [matchLen, matchCore]
             exact lang_head_not_h hr2)
  · refine ⟨2, by omega, ?_, hrest⟩
    simp [matchLen, matchCore]
    exact lang_head_not_h hrest
  · rcases lang_inv hrest with rfl | ⟨u2, r2, hu2, rfl, hr2⟩
    · exact ⟨1, by omega, rfl, lang.nil⟩
    · fin_cases hu2 <;>
        first
          | exact ⟨2, by omega, rfl, hr2⟩
          | exact ⟨1, by omega, rfl, hrest⟩
          | (refine ⟨2, by omega, ?_, hr2⟩
             simp [matchLen, matchCore]
             exact lang_head_not_h hr2)
  · rcases lang_inv hrest with rfl | ⟨u2, r2, hu2, rfl, hr2⟩
    · exact ⟨1, by omega, rfl, lang.nil⟩
    · fin_cases hu2 <;>
        first
          | exact ⟨2, by omega, rfl, hr2⟩
          | exact ⟨1, by omega, rfl, hrest⟩
          | (refine ⟨2, by omega, ?_, hr2⟩
             simp [matchLen, matchCore]
             exact lang_head_not_h hr2)
  · rcases lang_inv hrest with rfl | ⟨u2, r2, hu2, rfl, hr2⟩
    · exact ⟨1, by omega, rfl, lang.nil⟩
    · fin_cases hu2 <;>
        first
          | exact ⟨2, by omega, rfl, hr2⟩
          | exact ⟨1, by omega, rfl, hrest⟩
          | (refine ⟨2, by omega, ?_, hr2⟩
             simp [matchLen, matchCore]
             exact lang_head_not_h hr2)
  · rcases lang_inv hrest with rfl | ⟨u2, r2, hu2, rfl, hr2⟩
    · exact ⟨1, by omega, rfl, lang.nil⟩
    · fin_cases hu2 <;>
        first
          | exact ⟨2, by omega, rfl, hr2⟩
          | exact ⟨1, by omega, rfl, hrest⟩
          | (refine ⟨2, by omega, ?_, hr2⟩
             simp [matchLen, matchCore]
             exact lang_head_not_h hr2)
  · rcases lang_inv hrest with rfl | ⟨u2, r2, hu2, rfl, hr2⟩
    · exact ⟨1, by omega, rfl, lang.nil⟩
    · fin_cases hu2 <;>
        first
          | exact ⟨2, by omega, rfl, hr2⟩
          | exact ⟨1, by omega, rfl, hrest⟩
          | (refine ⟨2, by omega, ?_, hr2⟩
             simp [matchLen, matchCore]
             exact lang_head_not_h hr2)
  · rcases lang_inv hrest with rfl | ⟨u2, r2, hu2, rfl, hr2⟩
    · exact ⟨1, by omega, rfl, lang.nil⟩
    · fin_cases hu2 <;>
        first
          | exact ⟨2, by omega, rfl, hr2⟩
          | exact ⟨1, by omega, rfl, hrest⟩
          | (refine ⟨2, by omega, ?_, hr2⟩
             simp [matchLen, matchCore]
             exact lang_head_not_h hr2)
  · rcases lang_inv hrest with rfl | ⟨u2, r2, hu2, rfl, hr2⟩
    · exact ⟨1, by omega, rfl, lang.nil⟩
    · fin_cases hu2 <;>
        first
          | exact ⟨2, by omega, rfl, hr2⟩
          | exact ⟨1, by omega, rfl, hrest⟩
          | (refine ⟨2, by omega, ?_, hr2⟩
             simp [matchLen, matchCore]
             exact lang_head_not_h hr2)
  · rcases lang_inv hrest with rfl | ⟨u2, r2, hu2, rfl, hr2⟩
    · exact ⟨1, by omega, rfl, lang.nil⟩
    · fin_cases hu2 <;>
        first
          | exact ⟨2, by omega, rfl, hr2⟩
          | exact ⟨1, by omega, rfl, hrest⟩
          | (refine ⟨2, by omega, ?_, hr2⟩
             simp [matchLen, matchCore]
             exact lang_head_not_h hr2)
  · rcases lang_inv hrest with rfl | ⟨u2, r2, hu2, rfl, hr2⟩
    · exact ⟨1, by omega, rfl, lang.nil⟩
    · fin_cases hu2 <;>
        first
          | exact ⟨2, by omega, rfl, hr2⟩
          | exact ⟨1, by omega, rfl, hrest⟩
          | (refine ⟨2, by omega, ?_, hr2⟩
             simp [matchLen, matchCore]
             exact lang_head_not_h hr2)
  · rcases lang_inv hrest with rfl | ⟨u2, r2, hu2, rfl, hr2⟩
    · exact ⟨1, by omega, rfl, lang.nil⟩
    · fin_cases hu2 <;>
        first
          | exact ⟨2, by omega, rfl, hr2⟩
          | exact ⟨1, by omega, rfl, hrest⟩
          | (refine ⟨2, by omega, ?_, hr2⟩
             simp [matchLen, matchCore]
             exact lang_head_not_h hr2)
  · rcases lang_inv hrest with rfl | ⟨u2, r2, hu2, rfl, hr2⟩
    · exact ⟨1, by omega, rfl, lang.nil⟩
    · fin_cases hu2 <;>
        first
          | exact ⟨2, by omega, rfl, hr2⟩
          | exact ⟨1, by omega, rfl, hrest⟩
          | (refine ⟨2, by omega, ?_, hr2⟩
             simp [matchLen, matchCore]
             exact lang_head_not_h hr2)
  · rcases lang_inv hrest with rfl | ⟨u2, r2, hu2, rfl, hr2⟩
    · exact ⟨1, by omega, rfl, lang.nil⟩
    · fin_cases hu2 <;>
        first
          | exact ⟨2, by omega, rfl, hr2⟩
          | exact ⟨1, by omega, rfl, hrest⟩
          | (refine ⟨2, by omega, ?_, hr2⟩
             simp [matchLen, matchCore]
             exact lang_head_not_h hr2)
  · rcases lang_inv hrest with rfl | ⟨u2, r2, hu2, rfl, hr2⟩
    · exact ⟨1, by omega, rfl, lang.nil⟩
    · fin_cases hu2 <;>
        first
          | exact ⟨2, by omega, rfl, hr2⟩
          | exact ⟨1, by omega, rfl, hrest⟩
          | (refine ⟨2, by omega, ?_, hr2⟩
             simp [matchLen, matchCore]
             exact lang_head_not_h hr2)
  · rcases lang_inv hrest with rfl | ⟨u2, r2, hu2, rfl, hr2⟩
    · exact ⟨1, by omega, rfl, lang.nil⟩
    · fin_cases hu2 <;>
        first
          | exact ⟨2, by omega, rfl, hr2⟩
          | exact ⟨1, by omega, rfl, hrest⟩
          | (refine ⟨2, by omega, ?_, hr2⟩
             simp [matchLen, matchCore]
             exact lang_head_not_h hr2)

end Backtransliterator

namespace Backtransliterator

lemma findallGo_flatten : ∀ (fuel : ℕ) (s : List Char), s.length ≤ fuel → lang s →
    (findallGo fuel s).flatten = s := by
  intro fuel
  induction fuel with
  | zero =>
      intro s hlen _
      have : s = [] := List.length_eq_zero.mp (Nat.le_zero.mp hlen)
      subst this
      rfl
  | succ fuel ih =>
      intro s hlen hs
      cases s with
      | nil => rfl
      | cons c rest =>
          rcases lang_inv hs with heq | ⟨u, t, hu, heq, ht⟩
          · exact absurd heq (by simp)
          · rcases lang_step u hu t ht with ⟨n, hn1, hml, hld⟩
            rw [← heq] at hml hld
            have hstep : findallGo (fuel + 1) (c :: rest) =
                (c :: rest).take n :: findallGo fuel (rest.drop (n - 1)) := by
              rw [findallGo, hml]
            have hdrop : rest.drop (n - 1) = (c :: rest).drop n := by
              cases n with
              | zero => omega
              | succ m => simp
            have hlen2 : ((c :: rest).drop n).length ≤ fuel := by
              simp only [List.length_drop, List.length_cons]
              simp only [List.length_cons] at hlen
              omega
            rw [hstep, List.flatten_cons, hdrop]
            rw [ih ((c :: rest).drop n) hlen2 hld]
            exact List.take_append_drop n (c :: rest)

lemma findall_flatten (s : List Char) (hs : lang s) : (findall s).flatten = s :=
  findallGo_flatten s.length s (le_refl _) hs

/-- C5 (amended): for every word that is a concatenation of romanization
units (the grammar's well-formed inputs), concatenating the substrings
returned by the tokenizer reconstructs exactly the input word: the units
partition the word with no gaps and no overlaps. -/
theorem claim_C5 (w : String) (h : lang w.toList) :
    String.join (tokenize w) = w := by
  rw [tokenize, String.join_eq]
  have hdata : (List.map String.data (List.map (fun l => (⟨l⟩ : String))
      (findall w.toList))) = findall w.toList := by
    rw [List.map_map]
    exact List.map_id _
  rw [hdata, findall_flatten w.toList h]
  cases w
  rfl

theorem claim_C5_witness :
    lang ("rossiya" : String).toList ∧ String.join (tokenize "rossiya") = "rossiya" := by
  have hl : lang ("rossiya" : String).toList := by
    have h1 : ("rossiya" : String).toList =
        ['r'] ++ (['o'] ++ (['s'] ++ (['s'] ++ (['i'] ++ (['y','a'] ++ []))))) := by decide
    rw [h1]
    exact lang.cons _ _ (by decide) (lang.cons _ _ (by decide) (lang.cons _ _ (by decide)
      (lang.cons _ _ (by decide) (lang.cons _ _ (by decide)
        (lang.cons _ _ (by decide) lang.nil)))))
  exact ⟨hl, claim_C5 "rossiya" hl⟩

/-- C5 (counterexample): "hm" is made only of letters of the romanization
alphabet, yet the tokenizer skips the unmatched "h", so concatenating the
returned units gives "m", not "hm". -/
theorem claim_C5_cex :
    (∀ c ∈ ("hm" : String).toList, c ∈ latinAlphabet) ∧
    String.join (tokenize "hm") = "m" ∧ ("m" : String) ≠ "hm" := by
  refine ⟨by decide, ?_, by decide⟩
  rfl

end Backtransliterator
